import Mathlib

/-!
Shallow embedding of `src/expander.py` (a text macro-expansion preprocessor).

Strings are modelled as `List Char`.  The two regular expressions of the
source (`re_func_def` and `re_func_call`) are modelled by hand-written
matchers that follow the greedy/lazy semantics of the patterns
`\?\?defm:(\w+):(\w+)\(\s*([^\)]*)\s*\)\s*\{\{(.*?)\}\}` (flags I, S) and
`\?\?(.*?)\?\?((?:.*?\?\?)*?);` (flags I, S).  The backtracking scans are
written with an explicit fuel argument so that every definition is
structurally recursive and evaluates by `decide` / `rfl`; the fuel is always
instantiated with the length of the scanned suffix, which bounds the
recursion depth of the scan.

The guest interpreter subprocess (`subprocess.check_output`) is modelled by
an oracle `runProc : Str → Except Unit Str` mapping the contents of the
generated script file to either the captured standard output (`.ok`) or a
nonzero-exit failure (`.error`).  Temporary-file bookkeeping of
`Python.run_function` is modelled by the `tempCreated` / `tempDeleted`
flags of `ExecOutcome`.
-/

namespace Expander

abbrev Str := List Char

/-- `special_char = '??'` from the source. -/
def special_char : Str := ['?', '?']

/-- `end_char = ';'` from the source. -/
def end_char : Char := ';'

/-- Python 2 `\w` character class (ASCII word characters). -/
def isWordChar (c : Char) : Bool := c.isAlphanum || c = '_'

/-- Python 2 `\s` character class / `str.strip` whitespace. -/
def isSpacePy (c : Char) : Bool :=
  c = ' ' || c = '\t' || c = '\n' || c = '\r' || c = '\x0b' || c = '\x0c'

/-- The characters the backward indentation scan of `expand` accepts. -/
def isIndentChar (c : Char) : Bool := c = ' ' || c = '\t'

/-- `str_reverse` from the source. -/
def str_reverse (s : Str) : Str := s.reverse

/-- Python `str.strip()` (used on parameter names in `define_func`). -/
def pyStrip (s : Str) : Str :=
  ((s.dropWhile isSpacePy).reverse.dropWhile isSpacePy).reverse

/-- Python `result.rstrip('\n')` from `run_function`. -/
def rstripNl (s : Str) : Str :=
  (s.reverse.dropWhile (fun c => c = '\n')).reverse

/-- Python `code.split('\n')`. -/
def splitNl (s : Str) : List Str := s.splitOn '\n'

/-- Python `'\n'.join(lines)`. -/
def joinNl (lines : List Str) : Str := List.intercalate ['\n'] lines

/-- The line loop of `indent`: the flag records whether we are on the first
line, as in the source's `first` variable. -/
def indentLines (indent_str : Str) (ignore_first_line : Bool) : Bool → List Str → List Str
  | _, [] => []
  | first, l :: ls =>
    (if first && ignore_first_line then l else indent_str ++ l) ::
      indentLines indent_str ignore_first_line false ls

/-- `indent(code, indent_str, ignore_first_line)` from the source.  The
Python default `indent_str=None` materialises to four spaces; call sites
pass it explicitly here. -/
def indent (code indent_str : Str) (ignore_first_line : Bool) : Str :=
  joinNl (indentLines indent_str ignore_first_line true (splitNl code))

/-- Python `args.split(special_char)`: split on the two-character marker
`??`, leftmost and non-overlapping.  The accumulator holds the current
piece reversed; the boolean records a pending `'?'` seen on the previous
step that may open a marker. -/
def splitMarkerAux : Str → Bool → Str → List Str
  | acc, pending, [] => [if pending then ('?' :: acc).reverse else acc.reverse]
  | acc, false, c :: cs =>
    if c = '?' then splitMarkerAux acc true cs
    else splitMarkerAux (c :: acc) false cs
  | acc, true, c :: cs =>
    if c = '?' then acc.reverse :: splitMarkerAux [] false cs
    else splitMarkerAux (c :: '?' :: acc) false cs

def splitMarker (s : Str) : List Str := splitMarkerAux [] false s

/-- State of the `Python` language adapter: `functions` is the accumulated
generated source, `functions_declared` the set of declared names. -/
structure PyState where
  functions : Str
  functions_declared : List Str
deriving DecidableEq, Repr

/-- `Python.add_function`: appends
`'\ndef %s(%s):\n%s' % (name, ', '.join(args), indent(code))` to the
accumulated source and records the name as declared. -/
def add_function (p : PyState) (name : Str) (args : List Str) (code : Str) : PyState :=
  { functions := p.functions ++ '\n' :: ("def ".data ++ name ++ '(' ::
      (List.intercalate ", ".data args ++ "):\n".data ++
        indent code "    ".data false)),
    functions_declared := name :: p.functions_declared }

deriving instance DecidableEq for Except

/-- The errors the program can raise (Python exceptions). -/
inductive Err where
  | redeclare : Str → Err
  | unknownFunction : Str → Err
  | undeclaredFunction : Str → Err
  | errorRunningFunction : Err
  | procFailure : Err
deriving DecidableEq, Repr

/-- Outcome of one `Python.run_function` call.  `result` is the Python
return value: `.ok none` would be an implicit `None` return (no such path
exists in the source), `.ok (some s)` a returned string, `.error e` a
raised exception.  `tempCreated` / `tempDeleted` record whether the
temporary script file was created (`tempfile.mkstemp`) and deleted
(`os.unlink`). -/
structure ExecOutcome where
  result : Except Err (Option Str)
  tempCreated : Bool
  tempDeleted : Bool
deriving DecidableEq, Repr

/-- `Python.run_function(func, args)`: if `func` is declared, compose the
script `'%s\n%s(%s)\n' % (functions, func, ','.join(args))`, write it to a
temp file, run the interpreter (`runProc`), and on success delete the file
and return the output with trailing newlines stripped.  On interpreter
failure (`subprocess.check_output` raising), the exception propagates and
`os.unlink` is never reached. -/
def run_function (p : PyState) (runProc : Str → Except Unit Str)
    (func : Str) (args : List Str) : ExecOutcome :=
  if func ∈ p.functions_declared then
    match runProc (p.functions ++ '\n' ::
        (func ++ '(' :: (List.intercalate [','] args ++ [')', '\n']))) with
    | .error _ => ⟨.error .procFailure, true, false⟩
    | .ok out => ⟨.ok (some (rstripNl out)), true, true⟩
  else ⟨.error (.unknownFunction func), false, false⟩

/-- Global engine state: the single `Python()` adapter instance from
`langs` plus the `function_calls` registry.  In the source the registry
maps names to adapter objects; since `langs` contains only the Python
adapter, the registry is modelled as the list of registered names, each
owned by the Python adapter. -/
structure EngineState where
  py : PyState
  function_calls : List Str
deriving DecidableEq, Repr

/-- Initial state: `functions = ''`, `functions_declared = set()`,
`function_calls = {}`. -/
def initState : EngineState := ⟨⟨[], []⟩, []⟩

/-- The language tag that `langs` supports. -/
def pythonTag : Str := "python".data

/-- `define_func` (the `re_func_def.sub` callback inside
`define_functions`): split the parameter list on commas and strip each,
raise on a duplicate name, register the function if the language is
supported, silently skip otherwise.  The matched text is replaced by the
empty string (done by the scan driver `defGo`). -/
def define_func (st : EngineState) (name lang argsStr body : Str) :
    Except Err EngineState :=
  let args := (argsStr.splitOn ',').map pyStrip
  if name ∈ st.function_calls then .error (.redeclare name)
  else if lang = pythonTag then
    .ok { py := add_function st.py name args body,
          function_calls := name :: st.function_calls }
  else .ok st

/-! ### The definition grammar `re_func_def`

`\?\?defm:(\w+):(\w+)\(\s*([^\)]*)\s*\)\s*\{\{(.*?)\}\}` with flags
`re.I | re.S`, matched at a fixed start position.  The literal `defm` is
matched case-insensitively (flag `I`); `\w+` is greedy and followed by a
non-word literal, so it captures the maximal word-character run; the
greedy `\s*`/`[^\)]*` runs leave no room for backtracking; the lazy
`(.*?)` before `\}\}` stops at the earliest `}}`. -/

/-- Match a literal pattern case-insensitively, returning the rest. -/
def expectCI : Str → Str → Option Str
  | [], s => some s
  | _ :: _, [] => none
  | p :: ps, c :: cs => if p.toLower = c.toLower then expectCI ps cs else none

/-- Lazy scan to the earliest `}}`; returns the text before it and the
rest after it. -/
def scanToEndDef : Str → Option (Str × Str)
  | [] => none
  | ['\x7d'] => none
  | '\x7d' :: '\x7d' :: rest => some ([], rest)
  | c :: cs =>
    match scanToEndDef cs with
    | some (body, rest) => some (c :: body, rest)
    | none => none

/-- Match `re_func_def` at the start of `s`.  On success returns the four
captured groups `(name, lang, argsStr, body)` and the text after the
match. -/
def matchDefAt (s : Str) : Option ((Str × Str × Str × Str) × Str) :=
  match expectCI "??defm:".data s with
  | none => none
  | some r0 =>
    let name := r0.takeWhile isWordChar
    let r1 := r0.dropWhile isWordChar
    if name = [] then none else
    match r1 with
    | ':' :: r2 =>
      let lang := r2.takeWhile isWordChar
      let r3 := r2.dropWhile isWordChar
      if lang = [] then none else
      match r3 with
      | '(' :: r4 =>
        let r5 := r4.dropWhile isSpacePy
        let argsStr := r5.takeWhile (fun c => c ≠ ')')
        let r6 := r5.dropWhile (fun c => c ≠ ')')
        match r6 with
        | ')' :: r7 =>
          let r8 := r7.dropWhile isSpacePy
          match r8 with
          | '\x7b' :: '\x7b' :: r9 =>
            match scanToEndDef r9 with
            | some (body, r10) => some ((name, lang, argsStr, body), r10)
            | none => none
          | _ => none
        | _ => none
      | _ => none
    | _ => none

/-! ### The invocation grammar `re_func_call`

`\?\?(.*?)\?\?((?:.*?\?\?)*?);` with flags `re.I | re.S`, matched at a
fixed start position with the backtracking semantics of a lazy regex
engine.  The scans carry a fuel argument bounding the recursion depth by
the length of the scanned suffix, so that they are structurally recursive;
callers always supply sufficient fuel. -/

/-- Backtracking scan for `((?:.*?\?\?)*?);` when at least one repetition
is required (the zero-repetition case `';'` first is handled by the
caller, and inlined here after each completed repetition).  The
accumulator is the reversed current lazy fragment.  Returns the text
matched by the group (fragments each followed by `??`) and the rest after
the terminating `;`. -/
def tryRep : Nat → Str → Str → Option (Str × Str)
  | _ + 1, acc, '?' :: '?' :: ';' :: rest => some (acc.reverse ++ ['?', '?'], rest)
  | fuel + 1, acc, '?' :: '?' :: s =>
    (match tryRep fuel [] s with
     | some (g, rest) => some (acc.reverse ++ '?' :: '?' :: g, rest)
     | none => tryRep fuel ('?' :: acc) ('?' :: s))
  | fuel + 1, acc, c :: cs => tryRep fuel (c :: acc) cs
  | _, _, _ => none

/-- Match `((?:.*?\?\?)*?);` at the start of `s`: first try zero
repetitions (an immediate `;`), otherwise scan repetitions lazily. -/
def matchReps (s : Str) : Option (Str × Str) :=
  match s with
  | ';' :: rest => some ([], rest)
  | _ => tryRep s.length [] s

/-- Lazy scan for the name group `(.*?)` followed by `\?\?` and the
repetition group; backtracks into a longer name when the continuation
fails. -/
def tryName : Nat → Str → Str → Option (Str × Str × Str)
  | fuel + 1, acc, '?' :: '?' :: s =>
    (match matchReps s with
     | some (g, rest) => some (acc.reverse, g, rest)
     | none => tryName fuel ('?' :: acc) ('?' :: s))
  | fuel + 1, acc, c :: cs => tryName fuel (c :: acc) cs
  | _, _, _ => none

/-- Match `re_func_call` at the start of `s`.  On success returns the two
captured groups `(name, argsRaw)` and the text after the match. -/
def matchCallAt : Str → Option (Str × Str × Str)
  | '?' :: '?' :: s => tryName s.length [] s
  | _ => none

/-! ### The `expand` callback and the substitution drivers -/

/-- The backward indentation scan of `expand`: starting at `m.start() - 1`,
collect spaces and tabs walking left, then `str_reverse` the result. -/
def leftIndentAt (current_code : Str) (start : Nat) : Str :=
  str_reverse ((str_reverse (current_code.take start)).takeWhile isIndentChar)

/-- `expand` (the `re_func_call.sub` callback inside `expand_functions`):
split the raw second group on the marker and drop the trailing empty
fragment, compute the left margin at the match position in the original
text, resolve the name in the registry (raising "Undeclared function" if
absent), run the function, raise "Error running function" on a `None`
result, and otherwise reindent the result, skipping its first line. -/
def expand (st : EngineState) (runProc : Str → Except Unit Str)
    (current_code : Str) (start : Nat) (name argsRaw : Str) : Except Err Str :=
  let args := (splitMarker argsRaw).dropLast
  let left_indent := leftIndentAt current_code start
  if name ∈ st.function_calls then
    match (run_function st.py runProc name args).result with
    | .error e => .error e
    | .ok none => .error .errorRunningFunction
    | .ok (some r) => .ok (indent r left_indent true)
  else .error (.undeclaredFunction name)

/-- `re_func_def.sub(define_func, code)`: scan left to right, replace each
match by the empty string, thread the engine state, propagate exceptions.
The fuel bounds the scan depth; `define_functions` supplies the length of
the text, which suffices since every step consumes at least one
character. -/
def defGo : EngineState → Nat → Str → Except Err (Str × EngineState)
  | st, _, [] => .ok ([], st)
  | st, 0, c :: cs => .ok (c :: cs, st)
  | st, fuel + 1, c :: cs =>
    match matchDefAt (c :: cs) with
    | some ((name, lang, argsStr, body), rest) =>
      match define_func st name lang argsStr body with
      | .error e => .error e
      | .ok st1 =>
        match defGo st1 fuel rest with
        | .error e => .error e
        | .ok (tail, st2) => .ok (tail, st2)
    | none =>
      match defGo st fuel cs with
      | .error e => .error e
      | .ok (tail, st1) => .ok (c :: tail, st1)

/-- `define_functions` applied to one file's text. -/
def define_functions (st : EngineState) (code : Str) :
    Except Err (Str × EngineState) :=
  defGo st code.length code

/-- `re_func_call.sub(expand, current_code)`: scan left to right; `orig`
is the file's text (the `current_code` the callback closes over) and `pos`
the current match start offset in it. -/
def expandGo (runProc : Str → Except Unit Str) (st : EngineState) (orig : Str) :
    Nat → Nat → Str → Except Err Str
  | _, _, [] => .ok []
  | _, 0, c :: cs => .ok (c :: cs)
  | pos, fuel + 1, c :: cs =>
    match matchCallAt (c :: cs) with
    | some (name, argsRaw, rest) =>
      match expand st runProc orig pos name argsRaw with
      | .error e => .error e
      | .ok rep =>
        match expandGo runProc st orig (pos + ((c :: cs).length - rest.length)) fuel rest with
        | .error e => .error e
        | .ok tail => .ok (rep ++ tail)
    | none =>
      match expandGo runProc st orig (pos + 1) fuel cs with
      | .error e => .error e
      | .ok tail => .ok (c :: tail)

/-- The body of `expand_functions` for one file. -/
def expand_functions (runProc : Str → Except Unit Str) (st : EngineState)
    (code : Str) : Except Err Str :=
  expandGo runProc st code 0 code.length code

/-! ### The file set manager (`main`, directory mode) -/

/-- The definition phase across the file set: `expand_dir` calls
`expand_file` on each file in order, which loads it and immediately runs
`define_functions` on it, threading the global state. -/
def defPhase (st : EngineState) : List (Str × Str) →
    Except Err (List (Str × Str) × EngineState)
  | [] => .ok ([], st)
  | (f, code) :: rest =>
    match define_functions st code with
    | .error e => .error e
    | .ok (code1, st1) =>
      match defPhase st1 rest with
      | .error e => .error e
      | .ok (rest1, st2) => .ok ((f, code1) :: rest1, st2)

/-- The expansion phase across the file set (`expand_functions`'s loop over
`files.items()`). -/
def expandPhase (runProc : Str → Except Unit Str) (st : EngineState) :
    List (Str × Str) → Except Err (List (Str × Str))
  | [] => .ok []
  | (f, code) :: rest =>
    match expand_functions runProc st code with
    | .error e => .error e
    | .ok code1 =>
      match expandPhase runProc st rest with
      | .error e => .error e
      | .ok rest1 => .ok ((f, code1) :: rest1)

/-- Python `name.replace('.exp.', '.')` used by `write_out_files`. -/
def replaceExpMarker : Str → Str
  | '.' :: 'e' :: 'x' :: 'p' :: '.' :: rest => '.' :: replaceExpMarker rest
  | c :: cs => c :: replaceExpMarker cs
  | [] => []

/-- `write_out_files`: each file is written to the sibling path with the
`.exp.` marker segment collapsed. -/
def write_out_files (files : List (Str × Str)) : List (Str × Str) :=
  files.map (fun fc => (replaceExpMarker fc.1, fc.2))

/-- `main` in directory mode: run the definition phase over every loaded
file, then the expansion phase, and only then write the output files.  Any
exception aborts the run before `write_out_files` executes. -/
def mainDir (runProc : Str → Except Unit Str) (inputs : List (Str × Str)) :
    Except Err (List (Str × Str)) :=
  match defPhase initState inputs with
  | .error e => .error e
  | .ok (files1, st) =>
    match expandPhase runProc st files1 with
    | .error e => .error e
    | .ok files2 => .ok (write_out_files files2)

/-- The files actually written by a directory-mode run: the output of
`write_out_files` on success, nothing when the run aborts. -/
def mainDirWrites (runProc : Str → Except Unit Str)
    (inputs : List (Str × Str)) : List (Str × Str) :=
  match mainDir runProc inputs with
  | .ok out => out
  | .error _ => []

/-- The registry invariants preserved by the definition scan: no duplicate
names, and every registered name is declared in the Python adapter. -/
def StInv (st : EngineState) : Prop :=
  st.function_calls.Nodup ∧ ∀ m ∈ st.function_calls, m ∈ st.py.functions_declared

/-! ### Helper lemmas -/

theorem takeWhile_nil_of_head (p : Char → Bool) (l : Str) (c : Char)
    (hh : l.head? = some c) (hp : p c = false) : l.takeWhile p = [] := by
  cases l with
  | nil => simp at hh
  | cons a as =>
    simp only [List.head?_cons, Option.some.injEq] at hh
    subst hh
    simp [List.takeWhile_cons, hp]

theorem leftIndentAt_eq (code : Str) (start : Nat) (pre margin : Str)
    (h1 : code.take start = pre ++ margin)
    (h2 : ∀ c ∈ margin, isIndentChar c = true)
    (h3 : pre = [] ∨ ∃ d, pre.getLast? = some d ∧ isIndentChar d = false) :
    leftIndentAt code start = margin := by
  unfold leftIndentAt str_reverse
  rw [h1, List.reverse_append]
  rw [List.takeWhile_append_of_pos (by
    intro a ha
    exact h2 a (List.mem_reverse.mp ha))]
  have hpre : pre.reverse.takeWhile isIndentChar = [] := by
    rcases h3 with h | ⟨d, hd, hdp⟩
    · subst h; rfl
    · exact takeWhile_nil_of_head isIndentChar pre.reverse d
        (by rw [List.head?_reverse]; exact hd) hdp
  rw [hpre]
  simp

theorem indentLines_not_first (istr : Str) (ign : Bool) (ls : List Str) :
    indentLines istr ign false ls = ls.map (fun x => istr ++ x) := by
  induction ls with
  | nil => rfl
  | cons l ls ih => simp [indentLines, ih]

theorem indent_ignore_first (r margin : Str) (l1 : Str) (ls : List Str)
    (h : splitNl r = l1 :: ls) :
    indent r margin true = joinNl (l1 :: ls.map (fun x => margin ++ x)) := by
  unfold indent
  rw [h]
  simp [indentLines, indentLines_not_first]

theorem splitMarkerAux_no_q (f : Str) :
    ∀ acc rest, '?' ∉ f →
      splitMarkerAux acc false (f ++ '?' :: '?' :: rest)
        = (acc.reverse ++ f) :: splitMarkerAux [] false rest := by
  induction f with
  | nil => intro acc rest _; simp [splitMarkerAux]
  | cons c f ih =>
    intro acc rest h
    simp only [List.mem_cons, not_or] at h
    obtain ⟨h1, h2⟩ := h
    show splitMarkerAux acc false (c :: (f ++ '?' :: '?' :: rest)) = _
    rw [show splitMarkerAux acc false (c :: (f ++ '?' :: '?' :: rest))
        = if c = '?' then splitMarkerAux acc true (f ++ '?' :: '?' :: rest)
          else splitMarkerAux (c :: acc) false (f ++ '?' :: '?' :: rest) from rfl]
    rw [if_neg (fun hc => h1 hc.symm)]
    rw [ih (c :: acc) rest h2]
    simp

theorem splitMarker_roundtrip (frags : List Str) (h : ∀ f ∈ frags, '?' ∉ f) :
    splitMarker ((frags.map (fun f => f ++ special_char)).flatten) = frags ++ [[]] := by
  induction frags with
  | nil => rfl
  | cons f fs ih =>
    have hf := h f (List.mem_cons_self f fs)
    have hfs : ∀ g ∈ fs, '?' ∉ g := fun g hg => h g (List.mem_cons_of_mem f hg)
    show splitMarker ((f ++ special_char) ++ (fs.map (fun g => g ++ special_char)).flatten)
        = _
    unfold splitMarker
    rw [List.append_assoc]
    rw [show special_char ++ (fs.map (fun g => g ++ special_char)).flatten
        = '?' :: '?' :: (fs.map (fun g => g ++ special_char)).flatten from rfl]
    rw [splitMarkerAux_no_q f [] _ hf]
    rw [show splitMarkerAux [] false ((fs.map (fun g => g ++ special_char)).flatten)
        = splitMarker ((fs.map (fun g => g ++ special_char)).flatten) from rfl]
    rw [ih hfs]
    simp

theorem splitMarker_dropLast (frags : List Str) (h : ∀ f ∈ frags, '?' ∉ f) :
    (splitMarker ((frags.map (fun f => f ++ special_char)).flatten)).dropLast = frags := by
  rw [splitMarker_roundtrip frags h]
  simp

/-! ### C1 -/

/-- C1: at an invocation site whose immediately preceding characters form a
maximal run of spaces/tabs `margin`, when the registered function returns a
result `r` whose lines are `l1 :: ls`, the text substituted for the
invocation is `r` with every line except the first prefixed by exactly
`margin`. -/
theorem call_site_indentation
    (st : EngineState) (runProc : Str → Except Unit Str) (code : Str)
    (start : Nat) (name argsRaw r : Str) (pre margin l1 : Str) (ls : List Str)
    (htake : code.take start = pre ++ margin)
    (hmargin : ∀ c ∈ margin, isIndentChar c = true)
    (hmax : pre = [] ∨ ∃ d, pre.getLast? = some d ∧ isIndentChar d = false)
    (hmem : name ∈ st.function_calls)
    (hrun : (run_function st.py runProc name ((splitMarker argsRaw).dropLast)).result
        = .ok (some r))
    (hlines : splitNl r = l1 :: ls) :
    expand st runProc code start name argsRaw
      = .ok (joinNl (l1 :: ls.map (fun x => margin ++ x))) := by
  simp only [expand]
  rw [if_pos hmem, hrun]
  show Except.ok (indent r (leftIndentAt code start) true) = _
  rw [leftIndentAt_eq code start pre margin htake hmargin hmax]
  rw [indent_ignore_first r margin l1 ls hlines]

theorem call_site_indentation_witness :
    expand ⟨⟨[], ["f".data]⟩, ["f".data]⟩ (fun _ => .ok "a\nb".data)
        "  ".data 2 "f".data [] = .ok "a\n  b".data := by
  exact call_site_indentation ⟨⟨[], ["f".data]⟩, ["f".data]⟩ (fun _ => .ok "a\nb".data)
    "  ".data 2 "f".data [] "a\nb".data [] "  ".data "a".data ["b".data]
    (by decide) (by decide) (Or.inl rfl) (by decide) (by decide) (by decide)

/-! ### C2 -/

/-- C2: for a call site whose argument fragments `frags` contain no marker
character, the argument list handed to the adapter is exactly the raw
captured group split on the marker with the trailing empty element dropped
— i.e. `frags` in left-to-right order — and the generated script ends in
the call `name(f1,f2,…)` with the fragments comma-joined verbatim: an
interpreter oracle that answers exactly that script yields a successful
expansion with its output. -/
theorem arguments_forwarded_in_order
    (st : EngineState) (runProc : Str → Except Unit Str) (code : Str)
    (start : Nat) (name : Str) (frags : List Str) (out : Str)
    (hq : ∀ f ∈ frags, '?' ∉ f)
    (hmem : name ∈ st.function_calls)
    (hdecl : name ∈ st.py.functions_declared)
    (hproc : runProc (st.py.functions ++ '\n' ::
        (name ++ '(' :: (List.intercalate [','] frags ++ [')', '\n']))) = .ok out) :
    expand st runProc code start name
        ((frags.map (fun f => f ++ special_char)).flatten)
      = .ok (indent (rstripNl out) (leftIndentAt code start) true) := by
  simp only [expand]
  rw [splitMarker_dropLast frags hq]
  rw [if_pos hmem]
  unfold run_function
  rw [if_pos hdecl, hproc]

theorem arguments_forwarded_in_order_witness :
    expand ⟨⟨[], ["f".data]⟩, ["f".data]⟩
        (fun c => if c = "\nf(1,2)\n".data then .ok "ok\n".data else .error ())
        [] 0 "f".data "1??2??".data = .ok "ok".data := by
  exact arguments_forwarded_in_order ⟨⟨[], ["f".data]⟩, ["f".data]⟩
    (fun c => if c = "\nf(1,2)\n".data then .ok "ok\n".data else .error ())
    [] 0 "f".data ["1".data, "2".data] "ok\n".data
    (by decide) (by decide) (by decide) (by decide)

/-! ### Lemmas about `define_func` and the definition-phase invariants -/

theorem define_func_mem_error (st : EngineState) (name lang argsStr body : Str)
    (h : name ∈ st.function_calls) :
    define_func st name lang argsStr body = .error (.redeclare name) := by
  simp only [define_func]
  rw [if_pos h]

theorem define_func_ok_cases (st st1 : EngineState) (name lang argsStr body : Str)
    (h : define_func st name lang argsStr body = .ok st1) :
    name ∉ st.function_calls ∧
      (st1 = st ∨
        (st1.function_calls = name :: st.function_calls ∧
         st1.py.functions_declared = name :: st.py.functions_declared)) := by
  by_cases hm : name ∈ st.function_calls
  · rw [define_func_mem_error st name lang argsStr body hm] at h
    exact absurd h (by simp)
  · refine ⟨hm, ?_⟩
    simp only [define_func] at h
    rw [if_neg hm] at h
    by_cases hl : lang = pythonTag
    · rw [if_pos hl] at h
      simp only [Except.ok.injEq] at h
      subst h
      exact Or.inr ⟨rfl, rfl⟩
    · rw [if_neg hl] at h
      simp only [Except.ok.injEq] at h
      exact Or.inl h.symm

theorem define_func_inv (st st1 : EngineState) (name lang argsStr body : Str)
    (hinv : StInv st) (h : define_func st name lang argsStr body = .ok st1) :
    StInv st1 := by
  obtain ⟨hfresh, hcases⟩ := define_func_ok_cases st st1 name lang argsStr body h
  rcases hcases with rfl | ⟨hreg, hdec⟩
  · exact hinv
  · constructor
    · rw [hreg]
      exact List.nodup_cons.mpr ⟨hfresh, hinv.1⟩
    · intro m hm
      rw [hreg] at hm
      rw [hdec]
      rcases List.mem_cons.mp hm with rfl | hm
      · exact List.mem_cons_self m _
      · exact List.mem_cons_of_mem name (hinv.2 m hm)

theorem defGo_inv : ∀ (fuel : Nat) (s : Str) (st : EngineState) (out : Str)
    (st' : EngineState), StInv st → defGo st fuel s = .ok (out, st') → StInv st' := by
  intro fuel
  induction fuel with
  | zero =>
    intro s st out st' hinv h
    cases s with
    | nil => simp only [defGo, Except.ok.injEq, Prod.mk.injEq] at h; rw [← h.2]; exact hinv
    | cons c cs =>
      simp only [defGo, Except.ok.injEq, Prod.mk.injEq] at h; rw [← h.2]; exact hinv
  | succ fuel ih =>
    intro s st out st' hinv h
    cases s with
    | nil => simp only [defGo, Except.ok.injEq, Prod.mk.injEq] at h; rw [← h.2]; exact hinv
    | cons c cs =>
      cases hm : matchDefAt (c :: cs) with
      | some m =>
        obtain ⟨⟨name, lang, argsStr, body⟩, rest⟩ := m
        simp only [defGo, hm] at h
        cases hd : define_func st name lang argsStr body with
        | error e => simp only [hd] at h; exact absurd h (by simp)
        | ok st1 =>
          simp only [hd] at h
          cases hrec : defGo st1 fuel rest with
          | error e => simp only [hrec] at h; exact absurd h (by simp)
          | ok p =>
            obtain ⟨tail, st2⟩ := p
            simp only [hrec, Except.ok.injEq, Prod.mk.injEq] at h
            rw [← h.2]
            exact ih rest st1 tail st2
              (define_func_inv st st1 name lang argsStr body hinv hd) hrec
      | none =>
        simp only [defGo, hm] at h
        cases hrec : defGo st fuel cs with
        | error e => simp only [hrec] at h; exact absurd h (by simp)
        | ok p =>
          obtain ⟨tail, st1⟩ := p
          simp only [hrec, Except.ok.injEq, Prod.mk.injEq] at h
          rw [← h.2]
          exact ih cs st tail st1 hinv hrec

theorem defPhase_inv : ∀ (inputs : List (Str × Str)) (st : EngineState)
    (out : List (Str × Str)) (st' : EngineState),
    StInv st → defPhase st inputs = .ok (out, st') → StInv st' := by
  intro inputs
  induction inputs with
  | nil =>
    intro st out st' hinv h
    simp only [defPhase, Except.ok.injEq, Prod.mk.injEq] at h
    rw [← h.2]; exact hinv
  | cons fc rest ih =>
    intro st out st' hinv h
    obtain ⟨f, code⟩ := fc
    cases hd : define_functions st code with
    | error e => simp only [defPhase, hd] at h; exact absurd h (by simp)
    | ok p =>
      obtain ⟨code1, st1⟩ := p
      simp only [defPhase, hd] at h
      cases hrec : defPhase st1 rest with
      | error e => simp only [hrec] at h; exact absurd h (by simp)
      | ok q =>
        obtain ⟨rest1, st2⟩ := q
        simp only [hrec, Except.ok.injEq, Prod.mk.injEq] at h
        rw [← h.2]
        exact ih st1 rest1 st2
          (defGo_inv code.length code st code1 st1 hinv hd) hrec

theorem initState_inv : StInv initState := by
  constructor
  · exact List.nodup_nil
  · intro m hm; exact absurd hm (List.not_mem_nil m)

/-! ### C3 -/

/-- C3: scanning a definition block whose name is already in the Function
Registry raises the duplicate-definition error (in whatever file and state
the scan encounters it), and after any successful definition phase the
registry never maps one name twice. -/
theorem duplicate_definition_error :
    (∀ (st : EngineState) (name lang argsStr body : Str),
        name ∈ st.function_calls →
        define_func st name lang argsStr body = .error (.redeclare name))
    ∧ (∀ (inputs out : List (Str × Str)) (st' : EngineState),
        defPhase initState inputs = .ok (out, st') →
        st'.function_calls.Nodup) := by
  constructor
  · exact define_func_mem_error
  · intro inputs out st' h
    exact (defPhase_inv inputs initState out st' initState_inv h).1

theorem duplicate_definition_error_witness :
    define_func ⟨⟨[], ["f".data]⟩, ["f".data]⟩ "f".data "python".data [] []
        = .error (.redeclare "f".data)
    ∧ (⟨⟨"\ndef g(x):\n    1".data, ["g".data]⟩, ["g".data]⟩
        : EngineState).function_calls.Nodup := by
  constructor
  · exact duplicate_definition_error.1 ⟨⟨[], ["f".data]⟩, ["f".data]⟩
      "f".data "python".data [] [] (by decide)
  · exact duplicate_definition_error.2
      [("a".data, "??defm:g:python(x)\x7b\x7b1\x7d\x7d".data)] [("a".data, [])]
      ⟨⟨"\ndef g(x):\n    1".data, ["g".data]⟩, ["g".data]⟩ (by decide)

/-! ### C4 -/

/-- C4 counterexample: a text whose second definition block is tagged with
the unsupported language `ruby` but reuses the already-registered name `f`.
The Definition Scanner raises the duplicate-definition error on it instead
of skipping it silently, because `define_func` checks for duplicates before
checking language support. -/
theorem unsupported_language_counterexample :
    define_functions initState
        "??defm:f:python(x)\x7b\x7bA\x7d\x7d??defm:f:ruby(y)\x7b\x7bB\x7d\x7d".data
      = .error (.redeclare "f".data) := by decide

/-- C4 amended: for every definition block whose language tag is not a
supported language *and whose name is not already registered*, the scanner
strips the block's text, adds no registry entry, mutates no adapter state,
and raises no error. -/
theorem unsupported_language_skipped
    (st : EngineState) (fuel : Nat) (s name lang argsStr body rest : Str)
    (hm : matchDefAt s = some ((name, lang, argsStr, body), rest))
    (hlang : lang ≠ pythonTag)
    (hname : name ∉ st.function_calls) :
    define_func st name lang argsStr body = .ok st
    ∧ defGo st (fuel + 1) s = defGo st fuel rest := by
  have hdf : define_func st name lang argsStr body = .ok st := by
    simp only [define_func]
    rw [if_neg hname, if_neg hlang]
  refine ⟨hdf, ?_⟩
  cases s with
  | nil =>
    rw [show matchDefAt [] = none from rfl] at hm
    exact absurd hm (by simp)
  | cons c cs =>
    simp only [defGo, hm, hdf]
    cases hrec : defGo st fuel rest with
    | error e => rfl
    | ok p => obtain ⟨tail, st2⟩ := p; rfl

theorem unsupported_language_skipped_witness :
    define_func initState "g".data "ruby".data [] "B".data = .ok initState
    ∧ defGo initState 2 "??defm:g:ruby()\x7b\x7bB\x7d\x7d!".data
        = defGo initState 1 "!".data := by
  exact unsupported_language_skipped initState 1
    "??defm:g:ruby()\x7b\x7bB\x7d\x7d!".data "g".data "ruby".data [] "B".data "!".data
    (by decide) (by decide) (by decide)

/-! ### C5 -/

/-- C5 (code bug): with a declared function and an interpreter oracle that
fails (nonzero exit status), `run_function` propagates the execution error
but the temporary script file, although created, is never deleted —
`os.unlink` lies on the success path only. -/
theorem temp_file_not_deleted_on_failure :
    run_function ⟨[], ["f".data]⟩ (fun _ => .error ()) "f".data []
      = ⟨.error .procFailure, true, false⟩ := by decide

/-! ### C6 -/

/-- C6: expanding an invocation whose name is absent from the Function
Registry raises the undeclared-function error, and whenever a
directory-mode run aborts with an error, no output file has been
written. -/
theorem undeclared_function_aborts :
    (∀ (st : EngineState) (runProc : Str → Except Unit Str) (code : Str)
        (start : Nat) (name argsRaw : Str),
        name ∉ st.function_calls →
        expand st runProc code start name argsRaw
          = .error (.undeclaredFunction name))
    ∧ (∀ (runProc : Str → Except Unit Str) (inputs : List (Str × Str)) (e : Err),
        mainDir runProc inputs = .error e →
        mainDirWrites runProc inputs = []) := by
  constructor
  · intro st runProc code start name argsRaw h
    simp only [expand]
    rw [if_neg h]
  · intro runProc inputs e h
    simp [mainDirWrites, h]

theorem undeclared_function_aborts_witness :
    expand initState (fun _ => .error ()) [] 0 "f".data []
        = .error (.undeclaredFunction "f".data)
    ∧ mainDirWrites (fun _ => .error ()) [("a".data, "??f??;".data)] = [] := by
  constructor
  · exact undeclared_function_aborts.1 initState (fun _ => .error ()) [] 0
      "f".data [] (by decide)
  · exact undeclared_function_aborts.2 (fun _ => .error ())
      [("a".data, "??f??;".data)] (.undeclaredFunction "f".data) (by decide)

/-! ### C10 -/

/-- C10: `run_function` either raises or returns a string — the Python
`None` result never occurs — and consequently the only outcomes of the
`expand` callback are the undeclared-function, unknown-function and
interpreter-failure errors or a successful substitution; the
"Error running function" branch (reached only on a `None` result) is
unreachable. -/
theorem run_function_never_none :
    (∀ (p : PyState) (runProc : Str → Except Unit Str) (func : Str)
        (args : List Str),
        (run_function p runProc func args).result = .error (.unknownFunction func)
        ∨ (run_function p runProc func args).result = .error .procFailure
        ∨ ∃ s, (run_function p runProc func args).result = .ok (some s))
    ∧ (∀ (st : EngineState) (runProc : Str → Except Unit Str) (code : Str)
        (start : Nat) (name argsRaw : Str),
        expand st runProc code start name argsRaw = .error (.undeclaredFunction name)
        ∨ expand st runProc code start name argsRaw = .error (.unknownFunction name)
        ∨ expand st runProc code start name argsRaw = .error .procFailure
        ∨ ∃ s, expand st runProc code start name argsRaw = .ok s) := by
  have h1 : ∀ (p : PyState) (runProc : Str → Except Unit Str) (func : Str)
      (args : List Str),
      (run_function p runProc func args).result = .error (.unknownFunction func)
      ∨ (run_function p runProc func args).result = .error .procFailure
      ∨ ∃ s, (run_function p runProc func args).result = .ok (some s) := by
    intro p runProc func args
    unfold run_function
    by_cases hd : func ∈ p.functions_declared
    · rw [if_pos hd]
      cases hp : runProc (p.functions ++ '\n' ::
          (func ++ '(' :: (List.intercalate [','] args ++ [')', '\n']))) with
      | error u => exact Or.inr (Or.inl rfl)
      | ok out => exact Or.inr (Or.inr ⟨rstripNl out, rfl⟩)
    · rw [if_neg hd]
      exact Or.inl rfl
  refine ⟨h1, ?_⟩
  intro st runProc code start name argsRaw
  simp only [expand]
  by_cases hm : name ∈ st.function_calls
  · rw [if_pos hm]
    rcases h1 st.py runProc name ((splitMarker argsRaw).dropLast) with h | h | ⟨s, h⟩
    · rw [h]; exact Or.inr (Or.inl rfl)
    · rw [h]; exact Or.inr (Or.inr (Or.inl rfl))
    · rw [h]
      exact Or.inr (Or.inr (Or.inr
        ⟨indent s (leftIndentAt code start) true, rfl⟩))
  · rw [if_neg hm]
    exact Or.inl rfl

/-! ### C7 -/

theorem defGo_no_match : ∀ (fuel : Nat) (s : Str) (st : EngineState),
    (∀ i < s.length, matchDefAt (s.drop i) = none) →
    defGo st fuel s = .ok (s, st) := by
  intro fuel
  induction fuel with
  | zero => intro s st _; cases s <;> rfl
  | succ fuel ih =>
    intro s st h
    cases s with
    | nil => rfl
    | cons c cs =>
      have h0 : matchDefAt (c :: cs) = none := by
        simpa using h 0 (by simp)
      have hstep : ∀ i < cs.length, matchDefAt (cs.drop i) = none := by
        intro i hi
        simpa [List.drop_succ_cons] using h (i + 1) (by simpa using hi)
      simp only [defGo, h0]
      rw [ih cs st hstep]

theorem expandGo_no_match (runProc : Str → Except Unit Str) (st : EngineState)
    (orig : Str) : ∀ (fuel pos : Nat) (s : Str),
    (∀ i < s.length, matchCallAt (s.drop i) = none) →
    expandGo runProc st orig pos fuel s = .ok s := by
  intro fuel
  induction fuel with
  | zero => intro pos s _; cases s <;> rfl
  | succ fuel ih =>
    intro pos s h
    cases s with
    | nil => rfl
    | cons c cs =>
      have h0 : matchCallAt (c :: cs) = none := by
        simpa using h 0 (by simp)
      have hstep : ∀ i < cs.length, matchCallAt (cs.drop i) = none := by
        intro i hi
        simpa [List.drop_succ_cons] using h (i + 1) (by simpa using hi)
      simp only [expandGo, h0]
      rw [ih (pos + 1) cs hstep]

/-- C7: a text in which no position matches the definition grammar and no
position matches the invocation grammar passes through the Definition
Scanner and the Call Expander unchanged, with the registry and adapter
state untouched. -/
theorem no_macro_text_unchanged
    (st : EngineState) (runProc : Str → Except Unit Str) (text : Str)
    (hd : ∀ i < text.length, matchDefAt (text.drop i) = none)
    (hc : ∀ i < text.length, matchCallAt (text.drop i) = none) :
    define_functions st text = .ok (text, st)
    ∧ expand_functions runProc st text = .ok text :=
  ⟨defGo_no_match text.length text st hd,
   expandGo_no_match runProc st text text.length 0 text hc⟩

theorem no_macro_text_unchanged_witness :
    define_functions initState "hello, world\n  x = f(1)\n".data
        = .ok ("hello, world\n  x = f(1)\n".data, initState)
    ∧ expand_functions (fun _ => .error ()) initState "hello, world\n  x = f(1)\n".data
        = .ok "hello, world\n  x = f(1)\n".data :=
  no_macro_text_unchanged initState (fun _ => .error ())
    "hello, world\n  x = f(1)\n".data
    (@of_decide_eq_true _ (@Nat.decidableBallLT _ _ (fun _ _ => inferInstance)) (by rfl))
    (@of_decide_eq_true _ (@Nat.decidableBallLT _ _ (fun _ _ => inferInstance)) (by rfl))

/-! ### C8 -/

theorem rstripNl_spec (s : Str) :
    s = rstripNl s
        ++ List.replicate (s.reverse.takeWhile (fun c => c = '\n')).length '\n' := by
  have hT : s.reverse.takeWhile (fun c => c = '\n')
      = List.replicate (s.reverse.takeWhile (fun c => c = '\n')).length '\n' :=
    List.eq_replicate_of_mem (fun b hb => by
      have := List.mem_takeWhile_imp hb
      simpa using this)
  conv_lhs => rw [← List.reverse_reverse s,
    ← List.takeWhile_append_dropWhile (fun c => c = '\n') s.reverse,
    List.reverse_append]
  congr 1
  conv_lhs => rw [hT]
  rw [List.reverse_replicate]

theorem rstripNl_getLast (s : Str) : (rstripNl s).getLast? ≠ some '\n' := by
  unfold rstripNl
  rw [List.getLast?_reverse]
  intro h
  have hnot := List.head?_dropWhile_not (fun c => c = '\n') s.reverse
  rw [h] at hnot
  simp at hnot

theorem rstripNl_all_newlines (s : Str) (h : ∀ c ∈ s, c = '\n') :
    rstripNl s = [] := by
  unfold rstripNl
  have hnil : s.reverse.dropWhile (fun c => c = '\n') = [] :=
    List.dropWhile_eq_nil_iff.mpr (fun x hx => by
      simp [h x (List.mem_reverse.mp hx)])
  rw [hnil]
  rfl

/-- C8: on a successful execution, the value returned by `run_function` is
the interpreter's captured standard output with exactly its trailing
newline characters removed (the remainder never ends in a newline), and a
captured output that is empty or consists only of newlines yields the
empty string as a valid result, not an error. -/
theorem execute_trims_trailing_newlines
    (p : PyState) (runProc : Str → Except Unit Str) (func : Str)
    (args : List Str) (out : Str)
    (hdecl : func ∈ p.functions_declared)
    (hout : ∀ c, runProc c = .ok out) :
    (run_function p runProc func args).result = .ok (some (rstripNl out))
    ∧ (∃ k, out = rstripNl out ++ List.replicate k '\n')
    ∧ (rstripNl out).getLast? ≠ some '\n'
    ∧ ((∀ c ∈ out, c = '\n') →
        (run_function p runProc func args).result = .ok (some [])) := by
  have hres : (run_function p runProc func args).result = .ok (some (rstripNl out)) := by
    unfold run_function
    rw [if_pos hdecl, hout]
  refine ⟨hres, ⟨_, rstripNl_spec out⟩, rstripNl_getLast out, fun hall => ?_⟩
  rw [hres, rstripNl_all_newlines out hall]

theorem execute_trims_trailing_newlines_witness :
    (run_function ⟨[], ["f".data]⟩ (fun _ => .ok "x\n\n".data) "f".data []).result
      = .ok (some "x".data) :=
  (execute_trims_trailing_newlines ⟨[], ["f".data]⟩ (fun _ => .ok "x\n\n".data)
    "f".data [] "x\n\n".data (by decide) (fun _ => rfl)).1

/-! ### C9 -/

/-- C9: after the definition phase, every name in the Function Registry is
also in the Python adapter's declared-function set, so for an invocation
resolved through the registry the adapter's "unknown function" failure
branch of `run_function` cannot be taken. -/
theorem registry_consistency
    (runProc : Str → Except Unit Str) (inputs out : List (Str × Str))
    (st' : EngineState) (n : Str) (args : List Str)
    (hphase : defPhase initState inputs = .ok (out, st'))
    (hn : n ∈ st'.function_calls) :
    n ∈ st'.py.functions_declared
    ∧ (run_function st'.py runProc n args).result
        ≠ .error (.unknownFunction n) := by
  have hdecl : n ∈ st'.py.functions_declared :=
    (defPhase_inv inputs initState out st' initState_inv hphase).2 n hn
  refine ⟨hdecl, ?_⟩
  unfold run_function
  rw [if_pos hdecl]
  cases hp : runProc (st'.py.functions ++ '\n' ::
      (n ++ '(' :: (List.intercalate [','] args ++ [')', '\n']))) with
  | error u => simp
  | ok o => simp

theorem registry_consistency_witness :
    "g".data ∈ (⟨⟨"\ndef g(x):\n    1".data, ["g".data]⟩, ["g".data]⟩
        : EngineState).py.functions_declared
    ∧ (run_function (⟨⟨"\ndef g(x):\n    1".data, ["g".data]⟩, ["g".data]⟩
          : EngineState).py (fun _ => .error ()) "g".data []).result
        ≠ .error (.unknownFunction "g".data) :=
  registry_consistency (fun _ => .error ())
    [("a".data, "??defm:g:python(x)\x7b\x7b1\x7d\x7d".data)] [("a".data, [])]
    ⟨⟨"\ndef g(x):\n    1".data, ["g".data]⟩, ["g".data]⟩ "g".data []
    (by decide) (by decide)

/-! ### Sanity: the matchers decompose their input, and the scan drivers
are insensitive to any sufficient fuel

These lemmas are not tied to a specific claim; they certify that the
fueled scans model `re.sub`'s left-to-right scan faithfully: a successful
match really decomposes the input according to the grammar and consumes
part of it, and running a driver with any fuel at least the length of the
scanned text yields the same result, so the fuel chosen by
`define_functions` / `expand_functions` does not influence behavior. -/

theorem dropWhile_length_le (p : Char → Bool) (l : Str) :
    (l.dropWhile p).length ≤ l.length := by
  induction l with
  | nil => simp
  | cons a as ih =>
    rw [List.dropWhile_cons]
    split
    · simp only [List.length_cons]
      omega
    · simp

theorem expectCI_length : ∀ (p s r : Str), expectCI p s = some r →
    s.length = p.length + r.length := by
  intro p
  induction p with
  | nil =>
    intro s r h
    simp only [expectCI, Option.some.injEq] at h
    subst h
    simp
  | cons a p ih =>
    intro s r h
    cases s with
    | nil => simp [expectCI] at h
    | cons c cs =>
      rw [show expectCI (a :: p) (c :: cs)
          = if a.toLower = c.toLower then expectCI p cs else none from rfl] at h
      by_cases hc : a.toLower = c.toLower
      · rw [if_pos hc] at h
        have := ih cs r h
        simp only [List.length_cons, this]
        omega
      · rw [if_neg hc] at h
        exact absurd h (by simp)

theorem scanToEndDef_decomp : ∀ (s b r : Str), scanToEndDef s = some (b, r) →
    s = b ++ '\x7d' :: '\x7d' :: r := by
  intro s
  induction s with
  | nil => intro b r h; exact absurd h (by simp [scanToEndDef])
  | cons c cs ih =>
    intro b r h
    rw [scanToEndDef.eq_def] at h
    split at h
    · exact absurd h (by simp)
    · exact absurd h (by simp)
    · rename_i rest heq
      injection heq with hc hcs
      subst hc
      subst hcs
      simp only [Option.some.injEq, Prod.mk.injEq] at h
      obtain ⟨hb, hr⟩ := h
      subst hb
      subst hr
      simp
    · rename_i c1 cs1 hne1 hne2 heq
      injection heq with hc hcs
      subst hc
      subst hcs
      cases hrec : scanToEndDef cs with
      | none => rw [hrec] at h; exact absurd h (by simp)
      | some p =>
        obtain ⟨b1, r1⟩ := p
        rw [hrec] at h
        simp only [Option.some.injEq, Prod.mk.injEq] at h
        obtain ⟨hb, hr⟩ := h
        subst hb
        subst hr
        simp [ih b1 r1 hrec]

theorem matchDefAt_length (s : Str) (m : (Str × Str × Str × Str) × Str)
    (h : matchDefAt s = some m) : m.2.length < s.length := by
  unfold matchDefAt at h
  split at h
  · exact absurd h (by simp)
  · rename_i r0 hex
    dsimp only at h
    split at h
    · exact absurd h (by simp)
    · split at h
      · rename_i r1 r2 heq1
        split at h
        · exact absurd h (by simp)
        · split at h
          · rename_i r3 r4 heq2
            split at h
            · rename_i r6 r7 heq3
              split at h
              · rename_i r8 r9 heq4
                split at h
                · rename_i body r10 heq5
                  simp only [Option.some.injEq] at h
                  subst h
                  show r10.length < s.length
                  have l0 := expectCI_length "??defm:".data s r0 hex
                  have e7 : ("??defm:".data).length = 7 := rfl
                  rw [e7] at l0
                  have l1 := dropWhile_length_le isWordChar r0
                  rw [heq1] at l1
                  simp only [List.length_cons] at l1
                  have l2 := dropWhile_length_le isWordChar r2
                  rw [heq2] at l2
                  simp only [List.length_cons] at l2
                  have l3a := dropWhile_length_le isSpacePy r4
                  have l3b := dropWhile_length_le (fun c => c ≠ ')')
                    (r4.dropWhile isSpacePy)
                  rw [heq3] at l3b
                  simp only [List.length_cons] at l3b
                  have l4 := dropWhile_length_le isSpacePy r7
                  rw [heq4] at l4
                  simp only [List.length_cons] at l4
                  have l5 := scanToEndDef_decomp r9 body r10 heq5
                  have l5len : r9.length = body.length + (r10.length + 2) := by
                    rw [l5]
                    simp [List.length_append]
                  omega
                · exact absurd h (by simp)
              · exact absurd h (by simp)
            · exact absurd h (by simp)
          · exact absurd h (by simp)
      · exact absurd h (by simp)

theorem tryRep_decomp : ∀ (fuel : Nat) (acc s g r : Str),
    tryRep fuel acc s = some (g, r) → g ++ ';' :: r = acc.reverse ++ s := by
  intro fuel
  induction fuel with
  | zero =>
    intro acc s g r h
    rw [show tryRep 0 acc s = none from by cases s <;> rfl] at h
    exact absurd h (by simp)
  | succ fuel ih =>
    intro acc s g r h
    rw [tryRep.eq_def] at h
    split at h
    · rename_i n rest heq
      simp only [Option.some.injEq, Prod.mk.injEq] at h
      obtain ⟨hg, hr⟩ := h
      subst hg
      subst hr
      simp
    · rename_i fuel2 s1 hne heq
      obtain rfl : fuel = fuel2 := by omega
      cases hrec : tryRep fuel [] s1 with
      | some p =>
        obtain ⟨g1, r1⟩ := p
        rw [hrec] at h
        simp only [Option.some.injEq, Prod.mk.injEq] at h
        obtain ⟨hg, hr⟩ := h
        subst hg
        subst hr
        have h1 := ih [] s1 g1 r1 hrec
        simp only [List.reverse_nil, List.nil_append] at h1
        simp [← h1]
      | none =>
        rw [hrec] at h
        have h1 := ih _ _ g r h
        rw [h1]
        simp
    · rename_i fuel2 c cs hne1 hne2 heq
      obtain rfl : fuel = fuel2 := by omega
      have h1 := ih _ _ g r h
      rw [h1]
      simp
    · exact absurd h (by simp)

theorem matchReps_decomp (s g r : Str) (h : matchReps s = some (g, r)) :
    g ++ ';' :: r = s := by
  unfold matchReps at h
  split at h
  · simp only [Option.some.injEq, Prod.mk.injEq] at h
    obtain ⟨hg, hr⟩ := h
    subst hg
    subst hr
    simp
  · have h1 := tryRep_decomp _ [] _ g r h
    simpa using h1

theorem tryName_decomp : ∀ (fuel : Nat) (acc s nm g r : Str),
    tryName fuel acc s = some (nm, g, r) →
    nm ++ '?' :: '?' :: (g ++ ';' :: r) = acc.reverse ++ s := by
  intro fuel
  induction fuel with
  | zero =>
    intro acc s nm g r h
    rw [show tryName 0 acc s = none from by cases s <;> rfl] at h
    exact absurd h (by simp)
  | succ fuel ih =>
    intro acc s nm g r h
    rw [tryName.eq_def] at h
    split at h
    · rename_i fuel2 s1 heq
      obtain rfl : fuel = fuel2 := by omega
      cases hrec : matchReps s1 with
      | some p =>
        obtain ⟨g1, r1⟩ := p
        rw [hrec] at h
        simp only [Option.some.injEq, Prod.mk.injEq] at h
        obtain ⟨hnm, hg, hr⟩ := h
        subst hnm
        subst hg
        subst hr
        rw [matchReps_decomp s1 g1 r1 hrec]
      | none =>
        rw [hrec] at h
        have h1 := ih _ _ nm g r h
        rw [h1]
        simp
    · rename_i fuel2 c cs hne heq
      obtain rfl : fuel = fuel2 := by omega
      have h1 := ih _ _ nm g r h
      rw [h1]
      simp
    · exact absurd h (by simp)

theorem matchCallAt_decomp (s : Str) (m : Str × Str × Str)
    (h : matchCallAt s = some m) :
    s = '?' :: '?' :: (m.1 ++ '?' :: '?' :: (m.2.1 ++ ';' :: m.2.2)) := by
  obtain ⟨nm, g, r⟩ := m
  rw [matchCallAt.eq_def] at h
  split at h
  · rename_i s1
    have h1 := tryName_decomp s1.length [] s1 nm g r h
    simp only [List.reverse_nil, List.nil_append] at h1
    rw [← h1]
  · exact absurd h (by simp)

theorem matchCallAt_length (s : Str) (m : Str × Str × Str)
    (h : matchCallAt s = some m) : m.2.2.length < s.length := by
  have hdec := matchCallAt_decomp s m h
  rw [hdec]
  simp only [List.length_cons, List.length_append]
  omega

theorem defGo_fuel_insensitive : ∀ (n : Nat) (s : Str) (st : EngineState)
    (fuel1 fuel2 : Nat), s.length ≤ n → s.length ≤ fuel1 → s.length ≤ fuel2 →
    defGo st fuel1 s = defGo st fuel2 s := by
  intro n
  induction n with
  | zero =>
    intro s st fuel1 fuel2 hn _ _
    have : s = [] := List.length_eq_zero.mp (Nat.le_zero.mp hn)
    subst this
    cases fuel1 <;> cases fuel2 <;> rfl
  | succ n ih =>
    intro s st fuel1 fuel2 hn h1 h2
    cases s with
    | nil => cases fuel1 <;> cases fuel2 <;> rfl
    | cons c cs =>
      simp only [List.length_cons] at hn h1 h2
      obtain ⟨f1, rfl⟩ : ∃ k, fuel1 = k + 1 :=
        ⟨fuel1 - 1, by omega⟩
      obtain ⟨f2, rfl⟩ : ∃ k, fuel2 = k + 1 :=
        ⟨fuel2 - 1, by omega⟩
      cases hm : matchDefAt (c :: cs) with
      | some m =>
        obtain ⟨⟨name, lang, argsStr, body⟩, rest⟩ := m
        have hlen : rest.length < (c :: cs).length :=
          matchDefAt_length (c :: cs) ((name, lang, argsStr, body), rest) hm
        simp only [List.length_cons] at hlen
        simp only [defGo, hm]
        cases define_func st name lang argsStr body with
        | error e => rfl
        | ok st1 =>
          dsimp only
          rw [ih rest st1 f1 f2 (by omega) (by omega) (by omega)]
      | none =>
        simp only [defGo, hm]
        rw [ih cs st f1 f2 (by omega) (by omega) (by omega)]

theorem expandGo_fuel_insensitive (runProc : Str → Except Unit Str)
    (st : EngineState) (orig : Str) : ∀ (n : Nat) (s : Str) (pos fuel1 fuel2 : Nat),
    s.length ≤ n → s.length ≤ fuel1 → s.length ≤ fuel2 →
    expandGo runProc st orig pos fuel1 s = expandGo runProc st orig pos fuel2 s := by
  intro n
  induction n with
  | zero =>
    intro s pos fuel1 fuel2 hn _ _
    have : s = [] := List.length_eq_zero.mp (Nat.le_zero.mp hn)
    subst this
    cases fuel1 <;> cases fuel2 <;> rfl
  | succ n ih =>
    intro s pos fuel1 fuel2 hn h1 h2
    cases s with
    | nil => cases fuel1 <;> cases fuel2 <;> rfl
    | cons c cs =>
      simp only [List.length_cons] at hn h1 h2
      obtain ⟨f1, rfl⟩ : ∃ k, fuel1 = k + 1 :=
        ⟨fuel1 - 1, by omega⟩
      obtain ⟨f2, rfl⟩ : ∃ k, fuel2 = k + 1 :=
        ⟨fuel2 - 1, by omega⟩
      cases hm : matchCallAt (c :: cs) with
      | some m =>
        obtain ⟨name, argsRaw, rest⟩ := m
        have hlen : rest.length < (c :: cs).length :=
          matchCallAt_length (c :: cs) (name, argsRaw, rest) hm
        simp only [List.length_cons] at hlen
        simp only [expandGo, hm]
        cases expand st runProc orig pos name argsRaw with
        | error e => rfl
        | ok rep =>
          dsimp only
          rw [ih rest (pos + ((c :: cs).length - rest.length)) f1 f2
            (by omega) (by omega) (by omega)]
      | none =>
        simp only [expandGo, hm]
        rw [ih cs (pos + 1) f1 f2 (by omega) (by omega) (by omega)]

end Expander
